import Mathlib

/-!
Verification of the leaderboard update algorithm and the CUDA-version
resolution policy of `cuda-wsl-installer`.

The development shallowly embeds the two pieces of logic the specification
documents:

* `leaderboard_main` in `scripts/benchmarks/run_cuda_samples.py`
  (lines 118-136): load a JSON array of entries, replace-or-add by handle,
  re-sort ascending by score with a missing key defaulting to `+infinity`,
  truncate to 100 entries, and write back.
* `get_required_cuda_version` in `scripts/cuda_install.py` (lines 75-80):
  map a compute-capability string to a required toolkit version.

JSON numbers are modelled as rationals.  A JSON object's `score` field is
`Option (Option Rat)`: `none` when the key is absent, `some none` when the
key maps to JSON `null`, `some (some q)` for a number.  Python runtime
errors (`KeyError`, `TypeError` from ordering `None` against a float,
`json.JSONDecodeError`) are modelled with `Except`: an `.error` result is a
raised exception, which leaves the file untouched because the code writes
the file only after sorting succeeds.

Python's `sorted` is a stable ascending sort; it is embedded with
`List.insertionSort`, which is proved below to be stable (hence it computes
the same list as any other stable sort of the same key order).  CPython raises
`TypeError` as soon as a `None` sort key is compared with a float (or with
another `None`); in a list of two or more elements every element takes part
in at least one comparison during `list.sort`, so the embedding raises
exactly when the list has length at least two and contains a `null` score.
-/

instance {ε : Type u} {α : Type v} [DecidableEq ε] [DecidableEq α] :
    DecidableEq (Except ε α) := fun x y =>
  match x, y with
  | .ok a, .ok b =>
    if h : a = b then isTrue (by rw [h]) else isFalse (by simp [h])
  | .ok _, .error _ => isFalse (by simp)
  | .error _, .ok _ => isFalse (by simp)
  | .error e, .error f =>
    if h : e = f then isTrue (by rw [h]) else isFalse (by simp [h])

/-- A leaderboard entry as stored in the JSON array.  `handle` is `none` when
the object has no `"handle"` key (`s.get('handle')` then yields Python
`None`).  `score` distinguishes an absent `"score"` key (`none`), an explicit
JSON `null` (`some none`) and a number (`some (some q)`).  The remaining
descriptive string fields (`benchmark`, `status`, `cpu`, `gpu`, ...) are
collected in `meta`; they are never consulted by the algorithm. -/
structure Entry where
  handle : Option String
  score : Option (Option ℚ)
  meta : List (String × String)
deriving DecidableEq

/-- The `new_entry` dictionary built by `leaderboard_main`: the handle and the
numeric score `avg`, plus descriptive metadata. -/
def mkNewEntry (h : String) (avg : ℚ) (meta : List (String × String)) : Entry :=
  { handle := some h, score := some (some avg), meta := meta }

/-- The predicate `s.get('handle') == github_handle` of line 126. -/
def handleMatches (h : String) (e : Entry) : Bool :=
  e.handle == some h

/-- Line 126: `next((i for i, s in enumerate(scores) if s.get('handle') == github_handle), None)`,
the index of the first entry whose handle matches, if any. -/
def existingIndex (scores : List Entry) (h : String) : Option Nat :=
  match scores with
  | [] => none
  | e :: t =>
    if handleMatches h e then some 0 else (existingIndex t h).map (· + 1)

/-- Python exceptions that the modelled code can raise. -/
inductive PyError where
  | keyError
  | typeError
  | jsonDecodeError
deriving DecidableEq

/-- Lines 126-131: replace the first entry whose handle matches when the new
score is strictly smaller, otherwise keep the list; append when no entry
matches.  `scores[existing_index]['score']` raises `KeyError` when the key is
absent, and `avg < None` raises `TypeError`. -/
def replaceOrAdd (scores : List Entry) (h : String) (avg : ℚ)
    (meta : List (String × String)) : Except PyError (List Entry) :=
  match existingIndex scores h with
  | some i =>
    match scores[i]? with
    | none => .error .keyError
    | some e =>
      match e.score with
      | none => .error .keyError
      | some none => .error .typeError
      | some (some s) =>
        .ok (if avg < s then scores.set i (mkNewEntry h avg meta) else scores)
  | none => .ok (scores ++ [mkNewEntry h avg meta])

/-- The sort key `x.get("score", float('inf'))` of line 133: a rational
number, the default `+infinity` for an absent key, or Python `None` for an
explicit JSON `null` (which cannot be ordered against the others). -/
inductive SKey where
  | null
  | num (q : ℚ)
  | inf
deriving DecidableEq

/-- Sort key of an entry (line 133). -/
def sortKey (e : Entry) : SKey :=
  match e.score with
  | none => .inf
  | some none => .null
  | some (some q) => .num q

/-- Ordering of sort keys: numbers ascending, `inf` last.  The `null` cases
are unreachable during an actual sort (they raise `TypeError` first); the
values chosen here make the relation total and transitive. -/
def keyLe : SKey → SKey → Bool
  | .null, _ => true
  | .num _, .null => false
  | .num x, .num y => x ≤ y
  | .num _, .inf => true
  | .inf, .null => false
  | .inf, .num _ => false
  | .inf, .inf => true

/-- Comparison of entries by sort key. -/
def entLe (a b : Entry) : Bool :=
  keyLe (sortKey a) (sortKey b)

/-- `entLe` as a decidable relation, for use with `List.insertionSort`. -/
def entR (a b : Entry) : Prop :=
  entLe a b = true

instance : DecidableRel entR := fun _ _ =>
  inferInstanceAs (Decidable (_ = true))

/-- Stable ascending sort of entries by sort key.  `List.insertionSort` with
a total preorder is a stable sort, hence (by uniqueness of stable sorting,
proved below) it computes the same list as CPython's stable `sorted`. -/
def sortEnts (l : List Entry) : List Entry :=
  l.insertionSort entR

/-- Whether some entry carries an explicit JSON `null` score. -/
def hasNullScore (scores : List Entry) : Bool :=
  scores.any (fun e => sortKey e == SKey.null)

/-- Line 133, `sorted(scores, key=lambda x: x.get("score", float('inf')))`:
CPython raises `TypeError` when a `None` key is compared, which happens
exactly when the list has at least two elements and some key is `None`;
otherwise a stable ascending sort. -/
def pySorted (scores : List Entry) : Except PyError (List Entry) :=
  if 2 ≤ scores.length ∧ hasNullScore scores then .error .typeError
  else .ok (sortEnts scores)

/-- Line 133 in full: sort, then truncate to the first 100 entries. -/
def sortTrunc (scores : List Entry) : Except PyError (List Entry) :=
  (pySorted scores).map (fun l => l.take 100)

/-- State of the leaderboard file on disk. -/
inductive FileState where
  | absent
  | invalid (raw : String)
  | valid (entries : List Entry)
deriving DecidableEq

/-- Lines 118-123: read the file when it exists (raising
`json.JSONDecodeError` on unparseable content), otherwise start from `[]`. -/
def loadScores : FileState → Except PyError (List Entry)
  | .absent => .ok []
  | .invalid _ => .error .jsonDecodeError
  | .valid es => .ok es

/-- Lines 118-136 of `leaderboard_main`: the full upsert.  The returned list
is the new file content; an `.error` is a raised exception, before any write
happens. -/
def leaderboard_upsert (fs : FileState) (h : String) (avg : ℚ)
    (meta : List (String × String)) : Except PyError (List Entry) := do
  let scores ← loadScores fs
  let scores2 ← replaceOrAdd scores h avg meta
  sortTrunc scores2

/-- Effect of one call of `leaderboard_main` on the file: the file is
rewritten on success and untouched when an exception is raised. -/
def runUpsert (fs : FileState) (h : String) (avg : ℚ)
    (meta : List (String × String)) : FileState :=
  match leaderboard_upsert fs h avg meta with
  | .ok out => .valid out
  | .error _ => fs

/-- Entries persisted in a file state. -/
def entriesOf : FileState → List Entry
  | .valid es => es
  | _ => []

/-- One upsert request: the handle, the numeric benchmark duration and the
descriptive metadata of the `new_entry` dictionary. -/
structure Op where
  handle : String
  avg : ℚ
  meta : List (String × String)
deriving DecidableEq

/-- Apply one upsert request to the file. -/
def applyOp (fs : FileState) (op : Op) : FileState :=
  runUpsert fs op.handle op.avg op.meta

/-- Run a sequence of upserts starting from a given file state. -/
def runOps (fs : FileState) (ops : List Op) : FileState :=
  ops.foldl applyOp fs

/-- Value of a nonempty string of decimal digits, `none` otherwise. -/
def digitsToNat? (cs : List Char) : Option Nat :=
  if cs.isEmpty then none
  else if cs.all Char.isDigit then
    some (cs.foldl (fun n c => 10 * n + (c.toNat - 48)) 0)
  else none

/-- Python `int(s)` on an optionally signed decimal numeral. -/
def pyInt? (s : String) : Option Int :=
  match s.toList with
  | '-' :: rest => (digitsToNat? rest).map (fun n => -(n : Int))
  | '+' :: rest => (digitsToNat? rest).map (fun n => (n : Int))
  | cs => (digitsToNat? cs).map (fun n => (n : Int))

/-- Python `s.split('.')[0]`: the part of the string before the first dot,
or the whole string when it contains no dot. -/
def headBeforeDot (s : String) : String :=
  String.mk (s.toList.takeWhile (fun c => c != '.'))

/-- Lines 75-80 of `scripts/cuda_install.py`:
`get_required_cuda_version(compute_cap)`.  `int(...)` on an unparseable
major part raises `ValueError`. -/
def get_required_cuda_version (compute_cap : Option String) : Except String String :=
  match compute_cap with
  | none => .ok "12.0"
  | some s =>
    match pyInt? (headBeforeDot s) with
    | none => .error "ValueError"
    | some major =>
      .ok (if major ≤ 7 then "11.0" else if 8 ≤ major then "13.0" else "12.0")

/-- The ordering the specification claims for the persisted file: keys with
both an absent and a `null` score treated as `+infinity`. -/
def specKeyInf (e : Entry) : SKey :=
  match e.score with
  | none => .inf
  | some none => .inf
  | some (some q) => .num q

/-- The specification's claimed sort invariant: non-decreasing scores with
absent-or-null scores placed at the end, treated as `+infinity`. -/
def specSortedNullsLast (l : List Entry) : Prop :=
  l.Pairwise (fun a b => keyLe (specKeyInf a) (specKeyInf b) = true)

instance : DecidablePred specSortedNullsLast := fun l =>
  inferInstanceAs (Decidable (l.Pairwise _))

/-- The specification's per-handle upsert rule without the capacity cap:
replace the matching entry exactly when the new score is strictly lower,
append when no entry matches.  This is the reference model against which the
capped code is compared. -/
def specUncappedUpsert (l : List Entry) (h : String) (avg : ℚ)
    (meta : List (String × String)) : List Entry :=
  match existingIndex l h with
  | some i =>
    match l[i]? with
    | some e =>
      match e.score with
      | some (some s) => if avg < s then l.set i (mkNewEntry h avg meta) else l
      | _ => l
    | none => l
  | none => l ++ [mkNewEntry h avg meta]

/-- Key filter used to express stability: the entries carrying one fixed
sort key, in order. -/
def keyFilter (k : SKey) (l : List Entry) : List Entry :=
  l.filter (fun e => sortKey e == k)

/-- Stable insertion of `e` at the end of its key class in `S`. -/
def insEnd (S : List Entry) (e : Entry) : List Entry :=
  S.takeWhile (fun x => entLe x e) ++ e :: S.dropWhile (fun x => entLe x e)

/-- Invariant tying an uncapped ideal leaderboard to the requests still to
come: every entry is a `new_entry`-shaped record with a numeric score,
handles are pairwise distinct, and all scores (already stored and still
incoming) are pairwise distinct. -/
def InvC3 (I : List Entry) (ops : List Op) : Prop :=
  (∀ e ∈ I, ∃ q, e.score = some (some q)) ∧
  (I.map Entry.handle).Nodup ∧
  (I.map sortKey ++ ops.map (fun op => SKey.num op.avg)).Nodup

/-- All entries ever inserted, combined by the per-handle rule alone. -/
def specFold (ops : List Op) : List Entry :=
  ops.foldl (fun l op => specUncappedUpsert l op.handle op.avg op.meta) []

/-! ### Order facts about sort keys -/

theorem keyLe_refl (a : SKey) : keyLe a a = true := by
  cases a <;> simp [keyLe]

theorem keyLe_trans {a b c : SKey} (h1 : keyLe a b = true) (h2 : keyLe b c = true) :
    keyLe a c = true := by
  cases a <;> cases b <;> cases c <;> simp_all [keyLe]
  exact le_trans h1 h2

theorem keyLe_total (a b : SKey) : keyLe a b = true ∨ keyLe b a = true := by
  cases a <;> cases b <;> simp [keyLe]
  exact le_total _ _

theorem keyLe_antisymm {a b : SKey} (h1 : keyLe a b = true) (h2 : keyLe b a = true) :
    a = b := by
  cases a <;> cases b <;> simp_all [keyLe]
  exact le_antisymm h1 h2

instance : IsTotal Entry entR :=
  ⟨fun a b => keyLe_total (sortKey a) (sortKey b)⟩

instance : IsTrans Entry entR :=
  ⟨fun _ _ _ h1 h2 => keyLe_trans h1 h2⟩

theorem entR_of_not_entR {a b : Entry} (h : ¬ entR a b) : entR b a := by
  rcases keyLe_total (sortKey a) (sortKey b) with hk | hk
  · exact absurd hk h
  · exact hk

theorem sortKey_eq_of_entR_of_entR {a b : Entry} (h1 : entR a b) (h2 : entR b a) :
    sortKey a = sortKey b :=
  keyLe_antisymm h1 h2

/-! ### The stable sort -/

theorem sortEnts_sorted (l : List Entry) : List.Sorted entR (sortEnts l) :=
  List.sorted_insertionSort entR l

theorem sortEnts_perm (l : List Entry) : (sortEnts l).Perm l :=
  List.perm_insertionSort entR l

theorem sortEnts_of_sorted {l : List Entry} (h : List.Sorted entR l) :
    sortEnts l = l :=
  h.insertionSort_eq

theorem keyFilter_append (k : SKey) (l1 l2 : List Entry) :
    keyFilter k (l1 ++ l2) = keyFilter k l1 ++ keyFilter k l2 :=
  List.filter_append _ _

theorem keyFilter_cons_of_eq {k : SKey} {a : Entry} (l : List Entry)
    (h : sortKey a = k) : keyFilter k (a :: l) = a :: keyFilter k l := by
  simp [keyFilter, List.filter_cons, h]

theorem keyFilter_cons_of_ne {k : SKey} {a : Entry} (l : List Entry)
    (h : sortKey a ≠ k) : keyFilter k (a :: l) = keyFilter k l := by
  simp [keyFilter, List.filter_cons, h]

theorem keyFilter_orderedInsert (k : SKey) (a : Entry) (l : List Entry) :
    keyFilter k (List.orderedInsert entR a l) =
      if sortKey a = k then a :: keyFilter k l else keyFilter k l := by
  induction l with
  | nil =>
    by_cases h : sortKey a = k
    · simp [List.orderedInsert, keyFilter_cons_of_eq, h, keyFilter]
    · simp [List.orderedInsert, keyFilter_cons_of_ne, h, keyFilter]
  | cons b l ih =>
    by_cases hab : entR a b
    · rw [List.orderedInsert, if_pos hab]
      by_cases h : sortKey a = k
      · rw [keyFilter_cons_of_eq _ h, if_pos h]
      · rw [keyFilter_cons_of_ne _ h, if_neg h]
    · rw [List.orderedInsert, if_neg hab]
      have hba : entR b a := entR_of_not_entR hab
      have hne : sortKey b ≠ sortKey a := by
        intro he
        exact hab (by unfold entR entLe; rw [he]; exact keyLe_refl _)
      by_cases hb : sortKey b = k
      · have ha : sortKey a ≠ k := fun hk => hne (hb.trans hk.symm)
        rw [keyFilter_cons_of_eq _ hb, ih, if_neg ha, keyFilter_cons_of_eq _ hb,
          if_neg ha]
      · rw [keyFilter_cons_of_ne _ hb, ih, keyFilter_cons_of_ne _ hb]

/-- Stability of the sort: for each key, the entries carrying that key come
out in the order they went in. -/
theorem keyFilter_sortEnts (k : SKey) (l : List Entry) :
    keyFilter k (sortEnts l) = keyFilter k l := by
  induction l with
  | nil => rfl
  | cons a l ih =>
    show keyFilter k (List.orderedInsert entR a (sortEnts l)) = _
    rw [keyFilter_orderedInsert]
    by_cases h : sortKey a = k
    · rw [if_pos h, ih, keyFilter_cons_of_eq _ h]
    · rw [if_neg h, ih, keyFilter_cons_of_ne _ h]

/-! ### Uniqueness of stable sorting -/

theorem keyFilter_subset {k : SKey} {l : List Entry} {x : Entry}
    (hx : x ∈ keyFilter k l) : x ∈ l :=
  List.mem_of_mem_filter hx

theorem sortKey_of_mem_keyFilter {k : SKey} {l : List Entry} {x : Entry}
    (hx : x ∈ keyFilter k l) : sortKey x = k := by
  have := List.of_mem_filter hx
  simpa using this

/-- Two sorted lists whose per-key filters agree are equal.  This is the
uniqueness of stable sorting: the output of any stable sort is determined by
the per-key subsequences of the input. -/
theorem sorted_eq_of_keyFilter_eq {l1 l2 : List Entry} (h1 : List.Sorted entR l1)
    (h2 : List.Sorted entR l2) (hf : ∀ k, keyFilter k l1 = keyFilter k l2) :
    l1 = l2 := by
  induction l1 generalizing l2 with
  | nil =>
    cases l2 with
    | nil => rfl
    | cons b t2 =>
      have hb := hf (sortKey b)
      rw [keyFilter_cons_of_eq _ rfl] at hb
      simp [keyFilter] at hb
  | cons a t1 ih =>
    cases l2 with
    | nil =>
      have ha := hf (sortKey a)
      rw [keyFilter_cons_of_eq _ rfl] at ha
      simp [keyFilter] at ha
    | cons b t2 =>
      rw [List.sorted_cons] at h1 h2
      have hamem : a ∈ b :: t2 := by
        have ha := hf (sortKey a)
        rw [keyFilter_cons_of_eq _ rfl] at ha
        exact keyFilter_subset (ha ▸ List.mem_cons_self a _)
      have hbmem : b ∈ a :: t1 := by
        have hb := (hf (sortKey b)).symm
        rw [keyFilter_cons_of_eq _ rfl] at hb
        exact keyFilter_subset (hb ▸ List.mem_cons_self b _)
      have hkey : sortKey a = sortKey b := by
        rcases List.mem_cons.mp hamem with hab | hat2
        · rw [hab]
        · rcases List.mem_cons.mp hbmem with hba | hbt1
          · rw [hba]
          · exact sortKey_eq_of_entR_of_entR (h1.1 b hbt1) (h2.1 a hat2)
      have hfa := hf (sortKey a)
      rw [keyFilter_cons_of_eq _ rfl, keyFilter_cons_of_eq _ hkey.symm] at hfa
      have hab : a = b := (List.cons.injEq _ _ _ _ ▸ hfa).1
      have htail : ∀ k, keyFilter k t1 = keyFilter k t2 := by
        intro k
        by_cases hk : sortKey a = k
        · have := hf k
          rw [keyFilter_cons_of_eq _ hk, keyFilter_cons_of_eq _ (hkey ▸ hk)] at this
          exact (List.cons.injEq _ _ _ _ ▸ this).2
        · have := hf k
          rw [keyFilter_cons_of_ne _ hk, keyFilter_cons_of_ne _ (hkey ▸ hk)] at this
          exact this
      exact by rw [hab, ih h1.2 h2.2 htail]

/-- Characterization of the sort: any sorted list with the right per-key
filters is the sorted list. -/
theorem eq_sortEnts_of_sorted_keyFilter {l l' : List Entry}
    (hs : List.Sorted entR l') (hf : ∀ k, keyFilter k l' = keyFilter k l) :
    l' = sortEnts l :=
  sorted_eq_of_keyFilter_eq hs (sortEnts_sorted l)
    (fun k => (hf k).trans (keyFilter_sortEnts k l).symm)

/-! ### Sorting a sorted list with one element appended -/

theorem dropWhile_entLe_not_key {S : List Entry} {e x : Entry}
    (hS : List.Sorted entR S) (hx : x ∈ S.dropWhile (fun y => entLe y e)) :
    keyLe (sortKey x) (sortKey e) = false := by
  rcases hB : S.dropWhile (fun y => entLe y e) with _ | ⟨d, B⟩
  · rw [hB] at hx; cases hx
  · have hdfail : entLe d e = false := by
      have hh := List.head?_dropWhile_not (fun y => entLe y e) S
      rw [hB] at hh
      simpa using hh
    have hdropsub : (S.dropWhile (fun y => entLe y e)).Sublist S :=
      List.dropWhile_sublist _
    have hsorted : List.Sorted entR (d :: B) := by
      rw [← hB]
      exact List.Pairwise.sublist hdropsub hS
    rw [hB] at hx
    rcases List.mem_cons.mp hx with hxd | hxB
    · rw [hxd]
      simpa [entLe] using hdfail
    · have hdx : entR d x := (List.sorted_cons.mp hsorted).1 x hxB
      by_contra hc
      have hxe : keyLe (sortKey x) (sortKey e) = true := by
        cases hq : keyLe (sortKey x) (sortKey e)
        · exact absurd hq hc
        · rfl
      have : entLe d e = true := keyLe_trans hdx hxe
      rw [this] at hdfail
      cases hdfail

theorem insEnd_sorted {S : List Entry} (hS : List.Sorted entR S) (e : Entry) :
    List.Sorted entR (insEnd S e) := by
  have hsplit : S.takeWhile (fun x => entLe x e) ++ S.dropWhile (fun x => entLe x e) = S :=
    List.takeWhile_append_dropWhile _ _
  have hSsplit := hS
  rw [← hsplit, List.Sorted, List.pairwise_append] at hSsplit
  obtain ⟨hA, hB, hcross⟩ := hSsplit
  rw [insEnd, List.Sorted, List.pairwise_append]
  refine ⟨hA, ?_, ?_⟩
  · rw [List.pairwise_cons]
    refine ⟨?_, hB⟩
    intro b hb
    have hfail := dropWhile_entLe_not_key hS hb
    rcases keyLe_total (sortKey e) (sortKey b) with hk | hk
    · exact hk
    · rw [hk] at hfail; cases hfail
  · intro a ha x hx
    rcases List.mem_cons.mp hx with hxe | hxB
    · rw [hxe]
      exact List.mem_takeWhile_imp (p := fun y => entLe y e) ha
    · exact hcross a ha x hxB

theorem keyFilter_dropWhile_entLe_eq_nil {S : List Entry} {e : Entry}
    (hS : List.Sorted entR S) :
    keyFilter (sortKey e) (S.dropWhile (fun x => entLe x e)) = [] := by
  rw [keyFilter, List.filter_eq_nil_iff]
  intro x hx
  have hfail := dropWhile_entLe_not_key hS hx
  simp only [beq_iff_eq]
  intro hxk
  rw [hxk, keyLe_refl] at hfail
  cases hfail

theorem sortEnts_append_singleton {S : List Entry} (hS : List.Sorted entR S)
    (e : Entry) : sortEnts (S ++ [e]) = insEnd S e := by
  refine (eq_sortEnts_of_sorted_keyFilter (insEnd_sorted hS e) ?_).symm
  intro k
  have hsplit : S.takeWhile (fun x => entLe x e) ++ S.dropWhile (fun x => entLe x e) = S :=
    List.takeWhile_append_dropWhile _ _
  have hrhs : keyFilter k (S ++ [e]) =
      keyFilter k (S.takeWhile (fun x => entLe x e)) ++
        (keyFilter k (S.dropWhile (fun x => entLe x e)) ++ keyFilter k [e]) := by
    conv_lhs => rw [← hsplit]
    rw [keyFilter_append, keyFilter_append, List.append_assoc]
  rw [hrhs, insEnd, keyFilter_append]
  by_cases hk : sortKey e = k
  · have hD : keyFilter k (S.dropWhile (fun x => entLe x e)) = [] := by
      rw [← hk]
      exact keyFilter_dropWhile_entLe_eq_nil hS
    rw [keyFilter_cons_of_eq _ hk, hD, keyFilter_cons_of_eq _ hk]
    simp [keyFilter]
  · rw [keyFilter_cons_of_ne _ hk, keyFilter_cons_of_ne _ hk]
    simp [keyFilter]

/-! ### Locating the first matching handle -/

theorem existingIndex_eq_none_iff {l : List Entry} {h : String} :
    existingIndex l h = none ↔ ∀ e ∈ l, handleMatches h e = false := by
  induction l with
  | nil => simp [existingIndex]
  | cons a t ih =>
    by_cases ha : handleMatches h a
    · simp [existingIndex, ha]
    · simp [existingIndex, ha, ih]

theorem existingIndex_append_of_match {P : List Entry} {h : String} (e : Entry)
    (Q : List Entry) (hP : ∀ x ∈ P, handleMatches h x = false)
    (he : handleMatches h e = true) :
    existingIndex (P ++ e :: Q) h = some P.length := by
  induction P with
  | nil => simp [existingIndex, he]
  | cons a P ih =>
    have ha : handleMatches h a = false := hP a (List.mem_cons_self a P)
    have ih2 := ih (fun x hx => hP x (List.mem_cons_of_mem a hx))
    simp [existingIndex, ha, ih2]

theorem existingIndex_destruct {l : List Entry} {h : String} {i : Nat}
    (hi : existingIndex l h = some i) :
    ∃ P e Q, l = P ++ e :: Q ∧ P.length = i ∧ handleMatches h e = true ∧
      ∀ x ∈ P, handleMatches h x = false := by
  induction l generalizing i with
  | nil => simp [existingIndex] at hi
  | cons a t ih =>
    by_cases ha : handleMatches h a
    · simp only [existingIndex, if_pos ha, Option.some.injEq] at hi
      exact ⟨[], a, t, rfl, hi, ha, by simp⟩
    · simp only [existingIndex, if_neg ha, Option.map_eq_some'] at hi
      obtain ⟨j, hj, hji⟩ := hi
      obtain ⟨P, e, Q, hl, hlen, he, hP⟩ := ih hj
      refine ⟨a :: P, e, Q, by rw [hl]; rfl, by simp [hlen, hji], he, ?_⟩
      intro x hx
      rcases List.mem_cons.mp hx with hxa | hxP
      · rw [hxa]; simpa using ha
      · exact hP x hxP

/-! ### The replace-or-add step on decomposed lists -/

theorem replaceOrAdd_of_no_match {scores : List Entry} {h : String} {avg : ℚ}
    {m : List (String × String)}
    (hnone : ∀ x ∈ scores, handleMatches h x = false) :
    replaceOrAdd scores h avg m = .ok (scores ++ [mkNewEntry h avg m]) := by
  unfold replaceOrAdd
  rw [existingIndex_eq_none_iff.mpr hnone]

theorem getElem?_append_cons_self {α : Type u} {P : List α} {e : α} {Q : List α} :
    (P ++ e :: Q)[P.length]? = some e := by
  rw [List.getElem?_append]
  simp

theorem set_append_cons_self {α : Type u} {P : List α} {e v : α} {Q : List α} :
    (P ++ e :: Q).set P.length v = P ++ v :: Q := by
  rw [List.set_append]
  simp

theorem replaceOrAdd_split {P : List Entry} {e : Entry} {Q : List Entry}
    {h : String} {avg : ℚ} {m : List (String × String)}
    (hP : ∀ x ∈ P, handleMatches h x = false) (he : handleMatches h e = true) :
    replaceOrAdd (P ++ e :: Q) h avg m =
      match e.score with
      | none => .error .keyError
      | some none => .error .typeError
      | some (some s) =>
        .ok (if avg < s then P ++ mkNewEntry h avg m :: Q else P ++ e :: Q) := by
  unfold replaceOrAdd
  rw [existingIndex_append_of_match e Q hP he]
  simp only [getElem?_append_cons_self]
  rcases e.score with _ | _ | s
  · rfl
  · rfl
  · simp only [set_append_cons_self]

/-! ### Anatomy of a successful upsert -/

theorem leaderboard_upsert_valid_eq (scores : List Entry) (h : String) (avg : ℚ)
    (m : List (String × String)) :
    leaderboard_upsert (.valid scores) h avg m =
      (replaceOrAdd scores h avg m).bind sortTrunc := rfl

theorem leaderboard_upsert_absent_eq (h : String) (avg : ℚ)
    (m : List (String × String)) :
    leaderboard_upsert .absent h avg m =
      sortTrunc (([] : List Entry) ++ [mkNewEntry h avg m]) := rfl

theorem except_bind_ok {ε α β : Type u} {x : Except ε α} {f : α → Except ε β}
    {out : β} (hx : x.bind f = .ok out) : ∃ a, x = .ok a ∧ f a = .ok out := by
  cases x with
  | error e => simp [Except.bind] at hx
  | ok a => exact ⟨a, rfl, hx⟩

theorem sortTrunc_ok_of_no_null {l : List Entry} (hn : hasNullScore l = false) :
    sortTrunc l = .ok ((sortEnts l).take 100) := by
  unfold sortTrunc pySorted
  rw [if_neg (by simp [hn])]
  rfl

theorem sortTrunc_ok_inv {l out : List Entry} (hok : sortTrunc l = .ok out) :
    out = (sortEnts l).take 100 ∧ (hasNullScore l = false ∨ l.length ≤ 1) := by
  unfold sortTrunc pySorted at hok
  by_cases hc : 2 ≤ l.length ∧ hasNullScore l = true
  · rw [if_pos hc] at hok
    simp [Except.map] at hok
  · rw [if_neg hc] at hok
    simp only [Except.map, Except.ok.injEq] at hok
    refine ⟨hok.symm, ?_⟩
    by_cases h2 : 2 ≤ l.length
    · left
      cases hn : hasNullScore l
      · rfl
      · exact absurd ⟨h2, hn⟩ hc
    · right; omega

theorem sortTrunc_err_of_null {l : List Entry} (h2 : 2 ≤ l.length)
    (hn : hasNullScore l = true) : sortTrunc l = .error .typeError := by
  unfold sortTrunc pySorted
  rw [if_pos ⟨h2, hn⟩]
  rfl

/-- Inversion of the replace-or-add step: a successful result is either an
append (no handle matched) or a conditional replacement of the first match,
whose stored score must then be a number. -/
theorem replaceOrAdd_ok_inv {scores : List Entry} {h : String} {avg : ℚ}
    {m : List (String × String)} {X : List Entry}
    (hX : replaceOrAdd scores h avg m = .ok X) :
    ((∀ x ∈ scores, handleMatches h x = false) ∧
        X = scores ++ [mkNewEntry h avg m]) ∨
      (∃ P e Q s, scores = P ++ e :: Q ∧ (∀ x ∈ P, handleMatches h x = false) ∧
        handleMatches h e = true ∧ e.score = some (some s) ∧
        X = if avg < s then P ++ mkNewEntry h avg m :: Q else P ++ e :: Q) := by
  rcases hE : existingIndex scores h with _ | i
  · left
    refine ⟨existingIndex_eq_none_iff.mp hE, ?_⟩
    rw [replaceOrAdd_of_no_match (existingIndex_eq_none_iff.mp hE)] at hX
    exact (Except.ok.injEq _ _ ▸ hX).symm
  · right
    obtain ⟨P, e, Q, hl, _, he, hP⟩ := existingIndex_destruct hE
    subst hl
    rw [replaceOrAdd_split hP he] at hX
    rcases hsc : e.score with _ | _ | s
    · rw [hsc] at hX; cases hX
    · rw [hsc] at hX; cases hX
    · rw [hsc] at hX
      exact ⟨P, e, Q, s, rfl, hP, he, hsc, (Except.ok.injEq _ _ ▸ hX).symm⟩

theorem upsert_valid_ok_inv {scores : List Entry} {h : String} {avg : ℚ}
    {m : List (String × String)} {out : List Entry}
    (hok : leaderboard_upsert (.valid scores) h avg m = .ok out) :
    ∃ X, replaceOrAdd scores h avg m = .ok X ∧ sortTrunc X = .ok out ∧
      out = (sortEnts X).take 100 := by
  rw [leaderboard_upsert_valid_eq] at hok
  obtain ⟨X, hX, hout⟩ := except_bind_ok hok
  exact ⟨X, hX, hout, (sortTrunc_ok_inv hout).1⟩

theorem sorted_of_sortTrunc_ok {l out : List Entry} (hok : sortTrunc l = .ok out) :
    List.Sorted entR out := by
  rw [(sortTrunc_ok_inv hok).1]
  exact List.Pairwise.sublist (List.take_sublist _ _) (sortEnts_sorted l)

theorem length_le_of_sortTrunc_ok {l out : List Entry}
    (hok : sortTrunc l = .ok out) : out.length ≤ 100 := by
  rw [(sortTrunc_ok_inv hok).1]
  exact le_trans (List.length_take_le _ _) (le_refl _)

/-- A successfully persisted list never contains an entry with a JSON `null`
score: with two or more entries the sort would have raised `TypeError`, and
the only single-entry results are numeric. -/
theorem no_null_of_upsert_ok {scores : List Entry} {h : String} {avg : ℚ}
    {m : List (String × String)} {out : List Entry}
    (hok : leaderboard_upsert (.valid scores) h avg m = .ok out) :
    ∀ x ∈ out, sortKey x ≠ SKey.null := by
  obtain ⟨X, hX, hst, hout⟩ := upsert_valid_ok_inv hok
  have hmemX : ∀ x ∈ out, x ∈ X := by
    intro x hx
    rw [hout] at hx
    exact (sortEnts_perm X).mem_iff.mp (List.mem_of_mem_take hx)
  rcases (sortTrunc_ok_inv hst).2 with hnull | hlen
  · intro x hx hk
    have : (fun e => sortKey e == SKey.null) x = true := by simp [hk]
    have hany : hasNullScore X = true := by
      rw [hasNullScore, List.any_eq_true]
      exact ⟨x, hmemX x hx, this⟩
    rw [hany] at hnull
    cases hnull
  · rcases replaceOrAdd_ok_inv hX with ⟨_, happ⟩ | ⟨P, e, Q, s, hdec, _, _, hsc, hrep⟩
    · rw [happ] at hlen hmemX
      have hsc : scores = [] := by
        rcases scores with _ | ⟨a, t⟩
        · rfl
        · simp at hlen
      subst hsc
      intro x hx hk
      have := hmemX x hx
      simp at this
      rw [this] at hk
      simp [mkNewEntry, sortKey] at hk
    · have hPQ : P = [] ∧ Q = [] := by
        rw [hdec] at hX
        by_cases hlt : avg < s
        · rw [if_pos hlt] at hrep
          rw [hrep] at hlen
          simp at hlen
          constructor
          · exact List.eq_nil_of_length_eq_zero (by omega)
          · exact List.eq_nil_of_length_eq_zero (by omega)
        · rw [if_neg hlt] at hrep
          rw [hrep] at hlen
          simp at hlen
          constructor
          · exact List.eq_nil_of_length_eq_zero (by omega)
          · exact List.eq_nil_of_length_eq_zero (by omega)
      obtain ⟨hP0, hQ0⟩ := hPQ
      subst hP0; subst hQ0
      intro x hx hk
      have hxX := hmemX x hx
      by_cases hlt : avg < s
      · rw [if_pos hlt] at hrep
        rw [hrep] at hxX
        simp at hxX
        rw [hxX] at hk
        simp [mkNewEntry, sortKey] at hk
      · rw [if_neg hlt] at hrep
        rw [hrep] at hxX
        simp at hxX
        rw [hxX] at hk
        rw [sortKey, hsc] at hk
        cases hk

theorem specKeyInf_eq_sortKey {e : Entry} (hn : sortKey e ≠ SKey.null) :
    specKeyInf e = sortKey e := by
  rcases hsc : e.score with _ | _ | q
  · rw [specKeyInf, sortKey, hsc]
  · rw [sortKey, hsc] at hn
    exact absurd rfl hn
  · rw [specKeyInf, sortKey, hsc]

/-! ### The claims -/

/-- C1: on a leaderboard whose entries carry at most one occurrence of the
incoming handle with a numeric stored score, an upsert appends the new entry
when no stored entry has that handle; when one does, it is replaced exactly
when the new score is strictly lower, and otherwise the stored list is
returned unchanged with the new entry discarded. -/
theorem claim_C1_upsert_rule (scores P Q : List Entry) (e : Entry) (h : String)
    (avg s : ℚ) (m : List (String × String)) :
    ((∀ x ∈ scores, handleMatches h x = false) →
      replaceOrAdd scores h avg m = .ok (scores ++ [mkNewEntry h avg m])) ∧
    (scores = P ++ e :: Q →
      (∀ x ∈ P, handleMatches h x = false) →
      (∀ x ∈ Q, handleMatches h x = false) →
      handleMatches h e = true →
      e.score = some (some s) →
      (avg < s → replaceOrAdd scores h avg m = .ok (P ++ mkNewEntry h avg m :: Q)) ∧
      (¬ avg < s → replaceOrAdd scores h avg m = .ok scores)) := by
  constructor
  · intro hnone
    exact replaceOrAdd_of_no_match hnone
  · intro hdec hP _ he hs
    subst hdec
    constructor
    · intro hlt
      rw [replaceOrAdd_split hP he, hs]
      show Except.ok (if avg < s then P ++ mkNewEntry h avg m :: Q else P ++ e :: Q) = _
      rw [if_pos hlt]
    · intro hge
      rw [replaceOrAdd_split hP he, hs]
      show Except.ok (if avg < s then P ++ mkNewEntry h avg m :: Q else P ++ e :: Q) = _
      rw [if_neg hge]

theorem claim_C1_upsert_rule_witness :
    replaceOrAdd [] "@alice" 2 [] = .ok [mkNewEntry "@alice" 2 []] ∧
    replaceOrAdd [⟨some "@alice", some (some 3), []⟩] "@alice" 2 [] =
      .ok [mkNewEntry "@alice" 2 []] ∧
    replaceOrAdd [⟨some "@alice", some (some 3), []⟩] "@alice" 4 [] =
      .ok [⟨some "@alice", some (some 3), []⟩] := by
  have h1 := (claim_C1_upsert_rule [] [] [] ⟨some "@alice", some (some 3), []⟩
    "@alice" 2 3 []).1 (by decide)
  have h2 := (claim_C1_upsert_rule [⟨some "@alice", some (some 3), []⟩] [] []
    ⟨some "@alice", some (some 3), []⟩ "@alice" 2 3 []).2 rfl (by decide)
    (by decide) (by decide) rfl
  have h3 := (claim_C1_upsert_rule [⟨some "@alice", some (some 3), []⟩] [] []
    ⟨some "@alice", some (some 3), []⟩ "@alice" 4 3 []).2 rfl (by decide)
    (by decide) (by decide) rfl
  refine ⟨by simpa using h1, by simpa using h2.1 (by norm_num), by simpa using h3.2 (by norm_num)⟩

/-- C4: the version resolver maps any compute-capability string whose major
part parses as an integer at most 7 to "11.0" and at least 8 to "13.0", maps
an absent capability to "12.0", and every successful result is one of
"11.0", "12.0", "13.0". -/
theorem claim_C4_version_resolver (s : String) (major : Int)
    (hparse : pyInt? (headBeforeDot s) = some major) :
    (major ≤ 7 → get_required_cuda_version (some s) = .ok "11.0") ∧
    (8 ≤ major → get_required_cuda_version (some s) = .ok "13.0") ∧
    get_required_cuda_version none = .ok "12.0" ∧
    (∀ cc r, get_required_cuda_version cc = .ok r →
      r = "11.0" ∨ r = "12.0" ∨ r = "13.0") := by
  refine ⟨?_, ?_, rfl, ?_⟩
  · intro h7
    simp only [get_required_cuda_version, hparse, if_pos h7]
  · intro h8
    simp only [get_required_cuda_version, hparse, if_neg (show ¬ major ≤ 7 by omega),
      if_pos h8]
  · intro cc r hr
    rcases cc with _ | s2
    · simp only [get_required_cuda_version, Except.ok.injEq] at hr
      exact Or.inr (Or.inl hr.symm)
    · rcases hp : pyInt? (headBeforeDot s2) with _ | mj
      · simp only [get_required_cuda_version, hp] at hr
        cases hr
      · simp only [get_required_cuda_version, hp, Except.ok.injEq] at hr
        subst hr
        by_cases h7 : mj ≤ 7
        · rw [if_pos h7]; exact Or.inl rfl
        · by_cases h8 : 8 ≤ mj
          · rw [if_neg h7, if_pos h8]; exact Or.inr (Or.inr rfl)
          · rw [if_neg h7, if_neg h8]; exact Or.inr (Or.inl rfl)

theorem claim_C4_version_resolver_witness :
    get_required_cuda_version (some "7.5") = .ok "11.0" ∧
    get_required_cuda_version (some "8.6") = .ok "13.0" ∧
    get_required_cuda_version none = .ok "12.0" := by
  have h1 := claim_C4_version_resolver "7.5" 7 (by decide)
  have h2 := claim_C4_version_resolver "8.6" 8 (by decide)
  exact ⟨h1.1 (by decide), h2.2.1 (by decide), h1.2.2.1⟩

/-- C6: when the file exists with unparseable content, the upsert raises the
parse error to the caller, performs no recovery, and the file state (hence
the existing data) is unchanged. -/
theorem claim_C6_parse_failure (raw : String) (h : String) (avg : ℚ)
    (m : List (String × String)) :
    leaderboard_upsert (.invalid raw) h avg m = .error .jsonDecodeError ∧
    runUpsert (.invalid raw) h avg m = .invalid raw :=
  ⟨rfl, rfl⟩

/-- C7: from an absent file, or an existing empty array, a single upsert
persists exactly one entry carrying the given handle and score; in
particular upserting "@alice" with score 1.2 = 6/5 yields exactly that one
entry. -/
theorem claim_C7_empty_start (h : String) (avg : ℚ) (m : List (String × String)) :
    leaderboard_upsert .absent h avg m = .ok [mkNewEntry h avg m] ∧
    leaderboard_upsert (.valid []) h avg m = .ok [mkNewEntry h avg m] ∧
    runUpsert .absent "@alice" (mkRat 6 5) m =
      .valid [mkNewEntry "@alice" (mkRat 6 5) m] ∧
    (mkNewEntry "@alice" (mkRat 6 5) m).handle = some "@alice" ∧
    (mkNewEntry "@alice" (mkRat 6 5) m).score = some (some (mkRat 6 5)) :=
  ⟨rfl, rfl, rfl, rfl, rfl⟩

/-- C8: when several stored entries carry the incoming handle, the upsert
compares against (and possibly replaces) only the first of them; everything
after the first match — later duplicates included, whatever their scores —
is passed through unexamined and unchanged. -/
theorem claim_C8_first_match_only (P Q : List Entry) (e : Entry) (h : String)
    (avg s : ℚ) (m : List (String × String))
    (hP : ∀ x ∈ P, handleMatches h x = false)
    (he : handleMatches h e = true)
    (hs : e.score = some (some s)) :
    replaceOrAdd (P ++ e :: Q) h avg m =
      .ok (if avg < s then P ++ mkNewEntry h avg m :: Q else P ++ e :: Q) := by
  rw [replaceOrAdd_split hP he, hs]

theorem claim_C8_first_match_only_witness :
    replaceOrAdd [⟨some "@h", some (some 5), []⟩, ⟨some "@h", some none, []⟩]
        "@h" 1 [] =
      .ok [mkNewEntry "@h" 1 [], ⟨some "@h", some none, []⟩] := by
  have h1 := claim_C8_first_match_only [] [⟨some "@h", some none, []⟩]
    ⟨some "@h", some (some 5), []⟩ "@h" 1 5 [] (by decide) (by decide) rfl
  simpa using h1

/-- C10: an upsert that finds a stored entry for the incoming handle succeeds
only when that entry's score is a number: a missing score key raises
`KeyError`, a JSON `null` score raises `TypeError` (instead of treating the
stored score as +infinity), and any successful upsert implies the matched
score was numeric. -/
theorem claim_C10_match_needs_numeric_score (scores : List Entry) (h : String)
    (avg : ℚ) (m : List (String × String)) (i : Nat) (e : Entry)
    (hidx : existingIndex scores h = some i)
    (hget : scores[i]? = some e) :
    (e.score = none → leaderboard_upsert (.valid scores) h avg m = .error .keyError) ∧
    (e.score = some none →
      leaderboard_upsert (.valid scores) h avg m = .error .typeError) ∧
    (∀ out, leaderboard_upsert (.valid scores) h avg m = .ok out →
      ∃ q, e.score = some (some q)) := by
  obtain ⟨P, e', Q, hdec, hlen, he', hP⟩ := existingIndex_destruct hidx
  subst hdec
  have hee : e = e' := by
    rw [← hlen, getElem?_append_cons_self, Option.some.injEq] at hget
    exact hget.symm
  subst hee
  rw [leaderboard_upsert_valid_eq, replaceOrAdd_split hP he']
  refine ⟨?_, ?_, ?_⟩
  · intro hsc; rw [hsc]; rfl
  · intro hsc; rw [hsc]; rfl
  · intro out hout
    rcases hsc : e.score with _ | _ | q
    · rw [hsc] at hout; cases hout
    · rw [hsc] at hout; cases hout
    · exact ⟨q, rfl⟩

theorem claim_C10_match_needs_numeric_score_witness :
    leaderboard_upsert (.valid [⟨some "@m", none, []⟩]) "@m" 1 [] =
        .error .keyError ∧
    leaderboard_upsert (.valid [⟨some "@n", some none, []⟩]) "@n" 1 [] =
        .error .typeError := by
  have h1 := claim_C10_match_needs_numeric_score [⟨some "@m", none, []⟩] "@m" 1 []
    0 ⟨some "@m", none, []⟩ (by decide) (by decide)
  have h2 := claim_C10_match_needs_numeric_score [⟨some "@n", some none, []⟩] "@n"
    1 [] 0 ⟨some "@n", some none, []⟩ (by decide) (by decide)
  exact ⟨h1.1 rfl, h2.2.1 rfl⟩

/-- C2 fails on the code: an entry with a JSON `null` score is not treated as
+infinity and sorted to the end — the sort raises `TypeError`, the file keeps
its previous content, and the persisted sequence afterwards is not in the
claimed order (the null entry sits in front of a numeric one). -/
theorem claim_C2_counterexample :
    leaderboard_upsert
        (.valid [⟨some "@a", some none, []⟩, ⟨some "@b", some (some 3), []⟩])
        "@c" 1 [] = .error .typeError ∧
    runUpsert (.valid [⟨some "@a", some none, []⟩, ⟨some "@b", some (some 3), []⟩])
        "@c" 1 [] =
      .valid [⟨some "@a", some none, []⟩, ⟨some "@b", some (some 3), []⟩] ∧
    ¬ specSortedNullsLast
        (entriesOf
          (runUpsert
            (.valid [⟨some "@a", some none, []⟩, ⟨some "@b", some (some 3), []⟩])
            "@c" 1 [])) :=
  ⟨by decide, by decide, by decide⟩

/-- C2 (amended): after every upsert that completes without raising, the
persisted sequence is non-decreasing in sort key, entries whose score key is
absent (treated as +infinity) sort to the end, and no persisted entry carries
a JSON `null` score — an upsert that would have to order a `null` score
raises instead of treating it as +infinity. -/
theorem claim_C2_sorted_after_upsert (scores : List Entry) (h : String)
    (avg : ℚ) (m : List (String × String)) (out : List Entry)
    (hok : leaderboard_upsert (.valid scores) h avg m = .ok out) :
    List.Sorted entR out ∧ (∀ x ∈ out, sortKey x ≠ SKey.null) ∧
    specSortedNullsLast out := by
  obtain ⟨X, _, hst, _⟩ := upsert_valid_ok_inv hok
  have hsorted := sorted_of_sortTrunc_ok hst
  have hnull := no_null_of_upsert_ok hok
  refine ⟨hsorted, hnull, ?_⟩
  refine List.Pairwise.imp_of_mem ?_ hsorted
  intro a b ha hb hab
  rw [specKeyInf_eq_sortKey (hnull a ha), specKeyInf_eq_sortKey (hnull b hb)]
  exact hab

theorem claim_C2_sorted_after_upsert_witness :
    List.Sorted entR [mkNewEntry "@b" 1 [], ⟨some "@m", none, []⟩] ∧
    (∀ x ∈ [mkNewEntry "@b" 1 [], ⟨some "@m", none, []⟩], sortKey x ≠ SKey.null) ∧
    specSortedNullsLast [mkNewEntry "@b" 1 [], ⟨some "@m", none, []⟩] :=
  claim_C2_sorted_after_upsert [⟨some "@m", none, []⟩] "@b" 1 []
    [mkNewEntry "@b" 1 [], ⟨some "@m", none, []⟩] (by decide)

/-! ### Stability of ties (C9) -/

theorem take_isPrefix {α : Type u} (n : Nat) (l : List α) : l.take n <+: l :=
  ⟨l.drop n, List.take_append_drop n l⟩

theorem keyFilter_isPrefix_of_sortTrunc_ok {X out : List Entry}
    (hout : sortTrunc X = .ok out) (k : SKey) :
    keyFilter k out <+: keyFilter k X := by
  rw [(sortTrunc_ok_inv hout).1]
  have h1 : keyFilter k ((sortEnts X).take 100) <+: keyFilter k (sortEnts X) :=
    List.IsPrefix.filter _ (take_isPrefix 100 (sortEnts X))
  rw [keyFilter_sortEnts] at h1
  exact h1

/-- C9: the sort of line 133 is stable.  For every key, the surviving entries
with that key appear in the stored result in exactly the order they had
before sorting; and when the upsert appends a new entry whose score ties with
existing entries, the new entry is placed after all of them (it is the last
element of its key class whenever it survives truncation). -/
theorem claim_C9_stable_equal_scores (scores X out : List Entry) (h : String)
    (avg : ℚ) (m : List (String × String))
    (hX : replaceOrAdd scores h avg m = .ok X)
    (hout : sortTrunc X = .ok out) :
    (∀ k, keyFilter k out <+: keyFilter k X) ∧
    ((∀ x ∈ scores, handleMatches h x = false) →
      X = scores ++ [mkNewEntry h avg m] ∧
      (mkNewEntry h avg m ∈ out →
        keyFilter (SKey.num avg) out =
          keyFilter (SKey.num avg) scores ++ [mkNewEntry h avg m])) := by
  refine ⟨fun k => keyFilter_isPrefix_of_sortTrunc_ok hout k, ?_⟩
  intro hnomatch
  have hXeq : X = scores ++ [mkNewEntry h avg m] := by
    rw [replaceOrAdd_of_no_match hnomatch] at hX
    exact (Except.ok.injEq _ _ ▸ hX).symm
  refine ⟨hXeq, ?_⟩
  intro hmem
  have hknew : sortKey (mkNewEntry h avg m) = SKey.num avg := rfl
  have hpre : keyFilter (SKey.num avg) out <+:
      keyFilter (SKey.num avg) scores ++ [mkNewEntry h avg m] := by
    have := keyFilter_isPrefix_of_sortTrunc_ok hout (SKey.num avg)
    rw [hXeq, keyFilter_append, keyFilter_cons_of_eq _ hknew] at this
    simpa [keyFilter] using this
  have hmemf : mkNewEntry h avg m ∈ keyFilter (SKey.num avg) out := by
    rw [keyFilter, List.mem_filter]
    exact ⟨hmem, by simp [hknew]⟩
  obtain ⟨t, ht⟩ := hpre
  rcases t with _ | ⟨a, t'⟩
  · rw [List.append_nil] at ht
    exact ht
  · exfalso
    have hlen : (keyFilter (SKey.num avg) out).length ≤
        (keyFilter (SKey.num avg) scores).length := by
      have := congrArg List.length ht
      simp at this
      omega
    have hpre2 : keyFilter (SKey.num avg) out <+: keyFilter (SKey.num avg) scores :=
      List.prefix_of_prefix_length_le ⟨a :: t', ht⟩ ⟨[mkNewEntry h avg m], rfl⟩ hlen
    have hmem2 : mkNewEntry h avg m ∈ scores :=
      keyFilter_subset (hpre2.subset hmemf)
    have := hnomatch _ hmem2
    rw [handleMatches] at this
    simp [mkNewEntry] at this

theorem claim_C9_stable_equal_scores_witness :
    keyFilter (SKey.num 1)
        [⟨some "@x", some (some 1), []⟩, mkNewEntry "@b" 1 []] =
      keyFilter (SKey.num 1) [⟨some "@x", some (some 1), []⟩] ++
        [mkNewEntry "@b" 1 []] :=
  ((claim_C9_stable_equal_scores [⟨some "@x", some (some 1), []⟩]
      ([⟨some "@x", some (some 1), []⟩] ++ [mkNewEntry "@b" 1 []])
      [⟨some "@x", some (some 1), []⟩, mkNewEntry "@b" 1 []] "@b" 1 []
      (by decide) (by decide)).2 (by decide)).2 (by decide)

/-! ### Idempotence (C5) -/

theorem handleMatches_mkNewEntry (h : String) (avg : ℚ)
    (m : List (String × String)) : handleMatches h (mkNewEntry h avg m) = true := by
  simp [handleMatches, mkNewEntry]

/-- After a successful replace-or-add for handle `h` with score `avg`, the
produced list contains a matching entry whose sort key is at most `avg`:
either the new entry itself, or the kept existing entry (whose score was not
beaten, hence is at most `avg`). -/
theorem exists_match_key_le {scores X : List Entry} {h : String} {avg : ℚ}
    {m : List (String × String)} (hX : replaceOrAdd scores h avg m = .ok X) :
    ∃ w ∈ X, handleMatches h w = true ∧ keyLe (sortKey w) (SKey.num avg) = true := by
  rcases replaceOrAdd_ok_inv hX with ⟨_, hXeq⟩ | ⟨P, e, Q, s, _, _, he, hs, hXeq⟩
  · refine ⟨mkNewEntry h avg m, ?_, handleMatches_mkNewEntry h avg m, ?_⟩
    · rw [hXeq]
      exact List.mem_append_right _ (List.mem_singleton_self _)
    · exact keyLe_refl _
  · by_cases hlt : avg < s
    · refine ⟨mkNewEntry h avg m, ?_, handleMatches_mkNewEntry h avg m, ?_⟩
      · rw [hXeq, if_pos hlt]
        exact List.mem_append_right _ (List.mem_cons_self _ _)
      · exact keyLe_refl _
    · refine ⟨e, ?_, he, ?_⟩
      · rw [hXeq, if_neg hlt]
        exact List.mem_append_right _ (List.mem_cons_self _ _)
      · have hkey : sortKey e = SKey.num s := by rw [sortKey, hs]
        rw [hkey]
        simp [keyLe]
        exact le_of_not_lt hlt

/-- An element of the pre-sort list that did not survive truncation sits
beyond position 100 of the sorted list, so the stored result is full and
every stored entry sorts no later than it. -/
theorem truncated_element_bounds {X out : List Entry} {w : Entry}
    (hst : sortTrunc X = .ok out) (hw : w ∈ X) (hnot : w ∉ out) :
    out.length = 100 ∧ ∀ x ∈ out, entR x w := by
  have hout := (sortTrunc_ok_inv hst).1
  have hsplit : out ++ (sortEnts X).drop 100 = sortEnts X := by
    rw [hout]
    exact List.take_append_drop 100 (sortEnts X)
  have hwS : w ∈ sortEnts X := (sortEnts_perm X).mem_iff.mpr hw
  have hwD : w ∈ (sortEnts X).drop 100 := by
    rw [← hsplit] at hwS
    rcases List.mem_append.mp hwS with hL | hR
    · exact absurd hL hnot
    · exact hR
  have hsorted := sortEnts_sorted X
  rw [← hsplit, List.Sorted, List.pairwise_append] at hsorted
  refine ⟨?_, fun x hx => hsorted.2.2 x hx w hwD⟩
  have hD : (sortEnts X).drop 100 ≠ [] := List.ne_nil_of_mem hwD
  have hlenD : 0 < (sortEnts X).length - 100 := by
    rw [← List.length_drop]
    exact List.length_pos.mpr hD
  rw [hout, List.length_take]
  omega

/-- The heart of idempotence: a second identical upsert applied to a
successfully stored result either raises (leaving the file as it is) or
reproduces the stored result exactly. -/
theorem upsert_idem_core {scores out out2 : List Entry} {h : String} {avg : ℚ}
    {m : List (String × String)}
    (h1 : leaderboard_upsert (.valid scores) h avg m = .ok out)
    (h2 : leaderboard_upsert (.valid out) h avg m = .ok out2) :
    out2 = out := by
  obtain ⟨X, hX, hst, houtX⟩ := upsert_valid_ok_inv h1
  obtain ⟨Y, hY, hst2, hout2Y⟩ := upsert_valid_ok_inv h2
  have hsortedOut : List.Sorted entR out := sorted_of_sortTrunc_ok hst
  have hlenOut : out.length ≤ 100 := length_le_of_sortTrunc_ok hst
  obtain ⟨w, hwX, hwmatch, hwkey⟩ := exists_match_key_le hX
  rcases replaceOrAdd_ok_inv hY with ⟨hnm, hYeq⟩ | ⟨P, f, Q, sf, hdec, hPf, hf, hsf, hYite⟩
  · -- the handle does not occur in the stored result: the matching entry of
    -- the first pass was truncated away, so the second append is truncated too
    have hwnot : w ∉ out := by
      intro hmem
      have := hnm w hmem
      rw [hwmatch] at this
      cases this
    obtain ⟨hfull, hallw⟩ := truncated_element_bounds hst hwX hwnot
    have hall : ∀ x ∈ out, entLe x (mkNewEntry h avg m) = true := by
      intro x hx
      have h1x := hallw x hx
      have : keyLe (sortKey x) (SKey.num avg) = true := keyLe_trans h1x hwkey
      rw [entLe]
      have hknew : sortKey (mkNewEntry h avg m) = SKey.num avg := rfl
      rw [hknew]
      exact this
    have hdw : out.dropWhile (fun x => entLe x (mkNewEntry h avg m)) = [] :=
      List.dropWhile_eq_nil_iff.mpr hall
    have htw : out.takeWhile (fun x => entLe x (mkNewEntry h avg m)) = out := by
      have := List.takeWhile_append_dropWhile
        (fun x => entLe x (mkNewEntry h avg m)) out
      rw [hdw, List.append_nil] at this
      exact this
    have hsortY : sortEnts Y = out ++ [mkNewEntry h avg m] := by
      rw [hYeq, sortEnts_append_singleton hsortedOut, insEnd, htw, hdw]
    rw [hout2Y, hsortY, ← hfull, List.take_left]
  · -- the stored result still holds a matching entry; the first of them has
    -- the lowest key of all matches, which is at most `avg`, so no replacement
    have hfkey : keyLe (sortKey f) (SKey.num avg) = true := by
      have hfw : entLe f w = true ∨ f = w := by
        by_cases hwout : w ∈ out
        · rw [hdec] at hwout hsortedOut
          rcases List.mem_append.mp hwout with hwP | hwfq
          · exact absurd (hPf w hwP) (by rw [hwmatch]; simp)
          · rcases List.mem_cons.mp hwfq with hwf | hwQ
            · exact Or.inr hwf.symm
            · rw [List.Sorted, List.pairwise_append, List.pairwise_cons] at hsortedOut
              exact Or.inl (hsortedOut.2.1.1 w hwQ)
        · obtain ⟨_, hallw⟩ := truncated_element_bounds hst hwX hwout
          have : f ∈ out := by
            rw [hdec]
            exact List.mem_append_right _ (List.mem_cons_self _ _)
          exact Or.inl (hallw f this)
      rcases hfw with hfw | hfw
      · rw [entLe] at hfw
        exact keyLe_trans hfw hwkey
      · rw [hfw]
        exact hwkey
    have hsfavg : sf ≤ avg := by
      have : sortKey f = SKey.num sf := by rw [sortKey, hsf]
      rw [this] at hfkey
      simpa [keyLe] using hfkey
    have hYeq : Y = out := by
      rw [hYite, if_neg (not_lt.mpr hsfavg), hdec]
    rw [hout2Y, hYeq, sortEnts_of_sorted hsortedOut, List.take_of_length_le hlenOut]

/-- C5: the upsert is idempotent on the file state.  Performing the same
upsert twice leaves the file exactly as one upsert does: a successful second
pass finds its own score already stored (not strictly beaten) and rewrites
the same content, and a failing second pass leaves the file untouched. -/
theorem claim_C5_idempotent (fs : FileState) (h : String) (avg : ℚ)
    (m : List (String × String)) :
    runUpsert (runUpsert fs h avg m) h avg m = runUpsert fs h avg m := by
  rcases hru : leaderboard_upsert fs h avg m with e | out
  · have h1 : runUpsert fs h avg m = fs := by
      rw [runUpsert, hru]
    rw [h1]
    exact h1
  · have h1 : runUpsert fs h avg m = .valid out := by
      rw [runUpsert, hru]
    rw [h1]
    have hvalid : ∃ scores, leaderboard_upsert (.valid scores) h avg m = .ok out := by
      rcases fs with _ | raw | scores
      · exact ⟨[], hru⟩
      · cases hru
      · exact ⟨scores, hru⟩
    obtain ⟨scores, h1v⟩ := hvalid
    rcases hru2 : leaderboard_upsert (.valid out) h avg m with e2 | out2
    · rw [runUpsert, hru2]
    · rw [runUpsert, hru2, upsert_idem_core h1v hru2]

/-! ### Toolkit for the capacity refinement (C3) -/

theorem takeWhile_eq_self_of_all {p : Entry → Bool} {l : List Entry}
    (hall : ∀ x ∈ l, p x = true) : l.takeWhile p = l := by
  have hdw : l.dropWhile p = [] := List.dropWhile_eq_nil_iff.mpr hall
  have := List.takeWhile_append_dropWhile p l
  rw [hdw, List.append_nil] at this
  exact this

theorem takeWhile_nil_of_head_fail {p : Entry → Bool} {D : List Entry}
    (hD : ∀ d ∈ D, p d = false) : D.takeWhile p = [] := by
  cases D with
  | nil => rfl
  | cons d D' =>
    rw [List.takeWhile_cons, hD d (List.mem_cons_self _ _)]
    rfl

theorem dropWhile_self_of_head_fail {p : Entry → Bool} {D : List Entry}
    (hD : ∀ d ∈ D, p d = false) : D.dropWhile p = D := by
  cases D with
  | nil => rfl
  | cons d D' =>
    rw [List.dropWhile_cons, hD d (List.mem_cons_self _ _)]
    rfl

theorem take_len_append {C X : List Entry} {n : Nat} (hC : C.length = n) :
    (C ++ X).take n = C := by
  rw [List.take_append_eq_append_take, hC, Nat.sub_self, List.take_zero,
    List.append_nil]
  exact List.take_of_length_le (le_of_eq hC)

/-- Inserting at the end of the key class commutes with appending a tail all
of whose elements sort strictly later than the inserted one. -/
theorem insEnd_append_of_fail {A D : List Entry} {e : Entry}
    (hD : ∀ d ∈ D, entLe d e = false) :
    insEnd (A ++ D) e = insEnd A e ++ D := by
  rw [insEnd, insEnd, List.takeWhile_append, List.dropWhile_append]
  by_cases hA : (A.takeWhile (fun x => entLe x e)).length = A.length
  · rw [if_pos hA]
    have htwA : A.takeWhile (fun x => entLe x e) = A :=
      (List.takeWhile_prefix _).eq_of_length hA
    have hdwA : A.dropWhile (fun x => entLe x e) = [] := by
      have := List.takeWhile_append_dropWhile (fun x => entLe x e) A
      rw [htwA] at this
      simpa using this
    rw [if_pos (by rw [hdwA]; rfl)]
    rw [takeWhile_nil_of_head_fail hD, dropWhile_self_of_head_fail hD, htwA, hdwA]
    simp
  · rw [if_neg hA]
    have hdwA : A.dropWhile (fun x => entLe x e) ≠ [] := by
      intro hnil
      have := List.takeWhile_append_dropWhile (fun x => entLe x e) A
      rw [hnil, List.append_nil] at this
      exact hA (by rw [this])
    rw [if_neg (by simpa using hdwA)]
    simp

/-- Truncating to the capacity commutes with inserting into the full prefix:
whatever sits beyond a full stored page cannot influence the first `n`
entries after an insertion. -/
theorem take_insEnd_append {C E : List Entry} {e : Entry} {n : Nat}
    (hC : C.length = n) :
    (insEnd (C ++ E) e).take n = (insEnd C e).take n := by
  rw [insEnd, insEnd, List.takeWhile_append, List.dropWhile_append]
  by_cases hA : (C.takeWhile (fun x => entLe x e)).length = C.length
  · have htwC : C.takeWhile (fun x => entLe x e) = C :=
      (List.takeWhile_prefix _).eq_of_length hA
    have hdwC : C.dropWhile (fun x => entLe x e) = [] := by
      have := List.takeWhile_append_dropWhile (fun x => entLe x e) C
      rw [htwC] at this
      simpa using this
    rw [if_pos hA, if_pos (by rw [hdwC]; rfl), htwC, hdwC]
    rw [List.append_assoc, take_len_append hC, take_len_append hC]
  · rw [if_neg hA]
    have hdwC : C.dropWhile (fun x => entLe x e) ≠ [] := by
      intro hnil
      have := List.takeWhile_append_dropWhile (fun x => entLe x e) C
      rw [hnil, List.append_nil] at this
      exact hA (by rw [this])
    rw [if_neg (by simpa using hdwC)]
    have hassoc : C.takeWhile (fun x => entLe x e) ++
        e :: (C.dropWhile (fun x => entLe x e) ++ E) =
        (C.takeWhile (fun x => entLe x e) ++
          e :: C.dropWhile (fun x => entLe x e)) ++ E := by
      simp
    rw [hassoc]
    have hsum := congrArg List.length
      (List.takeWhile_append_dropWhile (fun x => entLe x e) C)
    rw [List.length_append] at hsum
    have hlen : n ≤ (C.takeWhile (fun x => entLe x e) ++
        e :: C.dropWhile (fun x => entLe x e)).length := by
      simp only [List.length_append, List.length_cons]
      omega
    rw [List.take_append_eq_append_take, Nat.sub_eq_zero_of_le hlen, List.take_zero,
      List.append_nil]

theorem sortEnts_append_singleton' (l : List Entry) (e : Entry) :
    sortEnts (l ++ [e]) = insEnd (sortEnts l) e := by
  rw [← sortEnts_append_singleton (sortEnts_sorted l) e]
  refine eq_sortEnts_of_sorted_keyFilter (sortEnts_sorted _) ?_
  intro k
  rw [keyFilter_sortEnts, keyFilter_append, keyFilter_append, keyFilter_sortEnts]

/-- Sorting with an element of fresh key inserted anywhere in the middle is
the same as inserting it into the sorted rest: with no key ties, stability
does not distinguish the insertion point. -/
theorem sortEnts_middle_insert {A B : List Entry} {e : Entry}
    (hfresh : ∀ x ∈ A ++ B, sortKey x ≠ sortKey e) :
    sortEnts (A ++ e :: B) = insEnd (sortEnts (A ++ B)) e := by
  rw [← sortEnts_append_singleton' (A ++ B) e]
  refine (eq_sortEnts_of_sorted_keyFilter (sortEnts_sorted _) ?_).symm
  intro k
  rw [keyFilter_sortEnts, keyFilter_append, keyFilter_append, keyFilter_append]
  by_cases hk : sortKey e = k
  · have hA : keyFilter k A = [] := by
      rw [keyFilter, List.filter_eq_nil_iff]
      intro x hx
      simp only [beq_iff_eq]
      intro hxk
      exact hfresh x (List.mem_append_left _ hx) (hxk.trans hk.symm)
    have hB : keyFilter k B = [] := by
      rw [keyFilter, List.filter_eq_nil_iff]
      intro x hx
      simp only [beq_iff_eq]
      intro hxk
      exact hfresh x (List.mem_append_right _ hx) (hxk.trans hk.symm)
    simp only [keyFilter] at hA hB ⊢
    simp [List.filter_cons, hk, hA, hB]
  · simp only [keyFilter]
    simp [List.filter_cons, hk]

theorem keyFilter_length_le_one {l : List Entry}
    (hnodup : (l.map sortKey).Nodup) (k : SKey) :
    (keyFilter k l).length ≤ 1 := by
  rcases hf : keyFilter k l with _ | ⟨a, t⟩
  · simp
  · rcases t with _ | ⟨b, t'⟩
    · simp
    · exfalso
      have hsub : (a :: b :: t').Sublist l := by
        rw [← hf]
        exact List.filter_sublist l
      have hmapsub : ((a :: b :: t').map sortKey).Sublist (l.map sortKey) :=
        hsub.map sortKey
      have hnd : ((a :: b :: t').map sortKey).Nodup := hnodup.sublist hmapsub
      have ha : sortKey a = k := sortKey_of_mem_keyFilter (hf ▸ List.mem_cons_self _ _)
      have hb : sortKey b = k := sortKey_of_mem_keyFilter
        (hf ▸ List.mem_cons_of_mem _ (List.mem_cons_self _ _))
      rw [List.map_cons, List.map_cons, List.nodup_cons] at hnd
      exact hnd.1 (by rw [ha, hb]; exact List.mem_cons_self _ _)

/-- With pairwise-distinct keys the stable sort is determined by the
multiset alone: any sorted permutation is the sorted list. -/
theorem eq_sortEnts_of_perm_sorted_nodup {l l' : List Entry}
    (hs : List.Sorted entR l') (hperm : l'.Perm l)
    (hnodup : (l.map sortKey).Nodup) :
    l' = sortEnts l := by
  refine eq_sortEnts_of_sorted_keyFilter hs ?_
  intro k
  have hpf : (keyFilter k l').Perm (keyFilter k l) := hperm.filter _
  have hlen : (keyFilter k l).length ≤ 1 := keyFilter_length_le_one hnodup k
  have hlen' : (keyFilter k l').length = (keyFilter k l).length := hpf.length_eq
  rcases h2 : keyFilter k l with _ | ⟨a, t⟩
  · rw [h2] at hpf
    exact List.Perm.eq_nil hpf
  · rcases t with _ | ⟨b, t'⟩
    · rw [h2] at hpf hlen'
      rcases h3 : keyFilter k l' with _ | ⟨a', t''⟩
      · rw [h3] at hlen'; simp at hlen'
      · rw [h3] at hpf hlen'
        simp at hlen'
        subst hlen'
        exact List.perm_singleton.mp hpf
    · rw [h2] at hlen
      simp at hlen

theorem hasNullScore_eq_false_of_numeric {l : List Entry}
    (hent : ∀ e ∈ l, ∃ q, e.score = some (some q)) :
    hasNullScore l = false := by
  rw [hasNullScore]
  rw [List.any_eq_false]
  intro x hx
  obtain ⟨q, hq⟩ := hent x hx
  simp [sortKey, hq]

/-- The spec's uncapped per-handle rule on a decomposed list. -/
theorem specUncappedUpsert_split {P : List Entry} {e : Entry} {Q : List Entry}
    {h : String} {avg s : ℚ} {m : List (String × String)}
    (hP : ∀ x ∈ P, handleMatches h x = false) (he : handleMatches h e = true)
    (hs : e.score = some (some s)) :
    specUncappedUpsert (P ++ e :: Q) h avg m =
      if avg < s then P ++ mkNewEntry h avg m :: Q else P ++ e :: Q := by
  unfold specUncappedUpsert
  rw [existingIndex_append_of_match e Q hP he]
  simp only [getElem?_append_cons_self, hs]
  rw [set_append_cons_self]

theorem specUncappedUpsert_of_no_match {l : List Entry} {h : String} {avg : ℚ}
    {m : List (String × String)} (hnone : ∀ x ∈ l, handleMatches h x = false) :
    specUncappedUpsert l h avg m = l ++ [mkNewEntry h avg m] := by
  unfold specUncappedUpsert
  rw [existingIndex_eq_none_iff.mpr hnone]

theorem handle_eq_of_handleMatches {h : String} {e : Entry}
    (he : handleMatches h e = true) : e.handle = some h := by
  rw [handleMatches] at he
  simpa using he

theorem match_unique {I : List Entry} {h : String}
    (hh : (I.map Entry.handle).Nodup) {x y : Entry} (hx : x ∈ I) (hy : y ∈ I)
    (hmx : handleMatches h x = true) (hmy : handleMatches h y = true) : x = y := by
  refine List.inj_on_of_nodup_map hh hx hy ?_
  rw [handle_eq_of_handleMatches hmx, handle_eq_of_handleMatches hmy]

theorem except_bind_ok_eq {ε α β : Type u} (a : α) (f : α → Except ε β) :
    (Except.ok a : Except ε α).bind f = f a := rfl

theorem sortKey_mkNewEntry (h : String) (avg : ℚ) (m : List (String × String)) :
    sortKey (mkNewEntry h avg m) = SKey.num avg := rfl

theorem length_insEnd (A : List Entry) (e : Entry) :
    (insEnd A e).length = A.length + 1 := by
  have hsum := congrArg List.length
    (List.takeWhile_append_dropWhile (fun x => entLe x e) A)
  rw [List.length_append] at hsum
  rw [insEnd, List.length_append, List.length_cons]
  omega

theorem take100_insEnd_take100 (S : List Entry) (e : Entry) :
    (insEnd (S.take 100) e).take 100 = (insEnd S e).take 100 := by
  by_cases hlen : S.length ≤ 100
  · rw [List.take_of_length_le hlen]
  · have hC : (S.take 100).length = 100 := by
      rw [List.length_take]
      omega
    have h2 := take_insEnd_append (C := S.take 100) (E := S.drop 100) (e := e) hC
    rw [List.take_append_drop] at h2
    exact h2.symm

/-- One upsert on the truncated stored page refines one uncapped spec upsert:
with all scores numeric, handles unique, keys pairwise distinct, and a fresh
incoming score, the stored page after the upsert is exactly the first 100
entries of the sorted uncapped ideal state. -/
theorem code_step {I : List Entry} {h : String} {avg : ℚ}
    {m : List (String × String)}
    (hent : ∀ e ∈ I, ∃ q, e.score = some (some q))
    (hhandles : (I.map Entry.handle).Nodup)
    (hkeys : (I.map sortKey).Nodup)
    (hfresh : SKey.num avg ∉ I.map sortKey) :
    leaderboard_upsert (.valid ((sortEnts I).take 100)) h avg m =
      .ok ((sortEnts (specUncappedUpsert I h avg m)).take 100) := by
  have hperm : (sortEnts I).Perm I := sortEnts_perm I
  have hSsorted : List.Sorted entR (sortEnts I) := sortEnts_sorted I
  have hCsorted : List.Sorted entR ((sortEnts I).take 100) :=
    List.Pairwise.sublist (List.take_sublist _ _) hSsorted
  have hmemC : ∀ x ∈ (sortEnts I).take 100, x ∈ I := fun x hx =>
    hperm.mem_iff.mp (List.mem_of_mem_take hx)
  have hfreshI : ∀ x ∈ I, sortKey x ≠ SKey.num avg := by
    intro x hx hkx
    exact hfresh (hkx ▸ List.mem_map_of_mem sortKey hx)
  have hSdec : (sortEnts I).take 100 ++ (sortEnts I).drop 100 = sortEnts I :=
    List.take_append_drop 100 (sortEnts I)
  rw [leaderboard_upsert_valid_eq]
  rcases hEI : existingIndex I h with _ | i
  · -- no stored entry matches: both sides append the new entry
    have hnomI : ∀ x ∈ I, handleMatches h x = false :=
      existingIndex_eq_none_iff.mp hEI
    have hnomC : ∀ x ∈ (sortEnts I).take 100, handleMatches h x = false :=
      fun x hx => hnomI x (hmemC x hx)
    rw [replaceOrAdd_of_no_match hnomC, specUncappedUpsert_of_no_match hnomI,
      except_bind_ok_eq]
    have hnn : hasNullScore ((sortEnts I).take 100 ++ [mkNewEntry h avg m]) = false := by
      refine hasNullScore_eq_false_of_numeric ?_
      intro x hx
      rcases List.mem_append.mp hx with hx1 | hx2
      · exact hent x (hmemC x hx1)
      · rw [List.mem_singleton] at hx2
        exact ⟨avg, by rw [hx2]; rfl⟩
    rw [sortTrunc_ok_of_no_null hnn]
    rw [sortEnts_append_singleton hCsorted, sortEnts_append_singleton' I]
    rw [take100_insEnd_take100]
  · -- a stored entry matches: decompose the ideal state at the first match
    obtain ⟨P, e0, Q, hIdec, hleni, he0, hP⟩ := existingIndex_destruct hEI
    subst hIdec
    obtain ⟨s0, hs0⟩ := hent e0 (List.mem_append_right _ (List.mem_cons_self _ _))
    have he0key : sortKey e0 = SKey.num s0 := by rw [sortKey, hs0]
    have he0handle : e0.handle = some h := handle_eq_of_handleMatches he0
    have hspec : specUncappedUpsert (P ++ e0 :: Q) h avg m =
        if avg < s0 then P ++ mkNewEntry h avg m :: Q else P ++ e0 :: Q :=
      specUncappedUpsert_split hP he0 hs0
    have hs0ne : s0 ≠ avg := by
      intro hcontr
      refine hfreshI e0 (List.mem_append_right _ (List.mem_cons_self _ _)) ?_
      rw [he0key, hcontr]
    by_cases he0C : e0 ∈ (sortEnts (P ++ e0 :: Q)).take 100
    · -- the matching entry survived truncation: the code compares with it
      rcases hEC : existingIndex ((sortEnts (P ++ e0 :: Q)).take 100) h with _ | j
      · exfalso
        have := existingIndex_eq_none_iff.mp hEC e0 he0C
        rw [he0] at this
        cases this
      · obtain ⟨Pc, f, Qc, hCdec, hlenj, hf, hPc⟩ := existingIndex_destruct hEC
        have hfe0 : f = e0 := match_unique hhandles
          (hmemC f (hCdec ▸ List.mem_append_right _ (List.mem_cons_self _ _)))
          (List.mem_append_right _ (List.mem_cons_self _ _)) hf he0
        rw [hfe0] at hf hCdec
        have hrepl : replaceOrAdd ((sortEnts (P ++ e0 :: Q)).take 100) h avg m =
            .ok (if avg < s0 then Pc ++ mkNewEntry h avg m :: Qc
                 else (sortEnts (P ++ e0 :: Q)).take 100) := by
          rw [hCdec, replaceOrAdd_split hPc hf, hs0]
        rw [hrepl, except_bind_ok_eq, hspec]
        by_cases hlt : avg < s0
        · rw [if_pos hlt, if_pos hlt]
          have hmemPcQc : ∀ x ∈ Pc ++ Qc, x ∈ (sortEnts (P ++ e0 :: Q)).take 100 := by
            intro x hx
            rw [hCdec]
            rcases List.mem_append.mp hx with h1 | h2
            · exact List.mem_append_left _ h1
            · exact List.mem_append_right _ (List.mem_cons_of_mem _ h2)
          have hnn : hasNullScore (Pc ++ mkNewEntry h avg m :: Qc) = false := by
            refine hasNullScore_eq_false_of_numeric ?_
            intro x hx
            rcases List.mem_append.mp hx with h1 | h2
            · exact hent x (hmemC x (hmemPcQc x (List.mem_append_left _ h1)))
            · rcases List.mem_cons.mp h2 with h3 | h4
              · exact ⟨avg, by rw [h3]; rfl⟩
              · exact hent x (hmemC x (hmemPcQc x (List.mem_append_right _ h4)))
          rw [sortTrunc_ok_of_no_null hnn]
          have hfreshPcQc : ∀ x ∈ Pc ++ Qc,
              sortKey x ≠ sortKey (mkNewEntry h avg m) := by
            intro x hx
            rw [sortKey_mkNewEntry]
            exact hfreshI x (hmemC x (hmemPcQc x hx))
          have hPcQcSorted : List.Sorted entR (Pc ++ Qc) := by
            refine List.Pairwise.sublist ?_ hCsorted
            rw [hCdec]
            exact List.Sublist.append (List.Sublist.refl _)
              (List.sublist_cons_self _ _)
          rw [sortEnts_middle_insert hfreshPcQc, sortEnts_of_sorted hPcQcSorted]
          have hfreshPQ : ∀ x ∈ P ++ Q, sortKey x ≠ sortKey (mkNewEntry h avg m) := by
            intro x hx
            rw [sortKey_mkNewEntry]
            refine hfreshI x ?_
            rcases List.mem_append.mp hx with h1 | h2
            · exact List.mem_append_left _ h1
            · exact List.mem_append_right _ (List.mem_cons_of_mem _ h2)
          rw [sortEnts_middle_insert hfreshPQ]
          have hCDeq : (Pc ++ e0 :: Qc) ++ (sortEnts (P ++ e0 :: Q)).drop 100 =
              sortEnts (P ++ e0 :: Q) := by
            rw [← hCdec]
            exact hSdec
          have hpermPQ : ((Pc ++ Qc) ++ (sortEnts (P ++ e0 :: Q)).drop 100).Perm
              (P ++ Q) := by
            have h1 : ((Pc ++ e0 :: Qc) ++
                (sortEnts (P ++ e0 :: Q)).drop 100).Perm (P ++ e0 :: Q) := by
              rw [hCDeq]
              exact hperm
            have h2 : (Pc ++ e0 :: Qc) ++ (sortEnts (P ++ e0 :: Q)).drop 100 =
                Pc ++ e0 :: (Qc ++ (sortEnts (P ++ e0 :: Q)).drop 100) := by
              simp
            rw [h2] at h1
            have h3 := (List.perm_middle.symm.trans h1).trans List.perm_middle
            have h4 := h3.cons_inv
            rw [List.append_assoc]
            exact h4
          have hsortedPQD : List.Sorted entR
              ((Pc ++ Qc) ++ (sortEnts (P ++ e0 :: Q)).drop 100) := by
            have hsub : ((Pc ++ Qc) ++ (sortEnts (P ++ e0 :: Q)).drop 100).Sublist
                ((Pc ++ e0 :: Qc) ++ (sortEnts (P ++ e0 :: Q)).drop 100) :=
              List.Sublist.append
                (List.Sublist.append (List.Sublist.refl _)
                  (List.sublist_cons_self _ _))
                (List.Sublist.refl _)
            rw [hCDeq] at hsub
            exact List.Pairwise.sublist hsub hSsorted
          have hkeysPQ : ((P ++ Q).map sortKey).Nodup := by
            refine hkeys.sublist ?_
            refine List.Sublist.map _ ?_
            exact List.Sublist.append (List.Sublist.refl _)
              (List.sublist_cons_self _ _)
          have hPQeq : sortEnts (P ++ Q) =
              (Pc ++ Qc) ++ (sortEnts (P ++ e0 :: Q)).drop 100 :=
            (eq_sortEnts_of_perm_sorted_nodup hsortedPQD hpermPQ hkeysPQ).symm
          rw [hPQeq]
          have hDfail : ∀ d ∈ (sortEnts (P ++ e0 :: Q)).drop 100,
              entLe d (mkNewEntry h avg m) = false := by
            intro d hd
            have hdI : d ∈ P ++ e0 :: Q := hperm.mem_iff.mp (List.mem_of_mem_drop hd)
            obtain ⟨sd, hsd⟩ := hent d hdI
            have hdkey : sortKey d = SKey.num sd := by rw [sortKey, hsd]
            have hcross : entR e0 d := by
              have hs2 := hSsorted
              rw [← hSdec, List.Sorted, List.pairwise_append] at hs2
              exact hs2.2.2 e0 he0C d hd
            have hs0sd : s0 ≤ sd := by
              rw [entR, entLe, he0key, hdkey] at hcross
              simpa [keyLe] using hcross
            rw [entLe, hdkey, sortKey_mkNewEntry]
            simp [keyLe]
            exact lt_of_lt_of_le hlt hs0sd
          rw [insEnd_append_of_fail hDfail]
          by_cases hD : (sortEnts (P ++ e0 :: Q)).drop 100 = []
          · rw [hD, List.append_nil]
          · have hlenC : ((sortEnts (P ++ e0 :: Q)).take 100).length = 100 := by
              have hpos : 0 < (sortEnts (P ++ e0 :: Q)).length - 100 := by
                rw [← List.length_drop]
                exact List.length_pos.mpr hD
              rw [List.length_take]
              omega
            have hlenPcQc : (Pc ++ Qc).length = 99 := by
              have hlen2 := congrArg List.length hCdec
              rw [hlenC] at hlen2
              simp at hlen2 ⊢
              omega
            have hlenIns : (insEnd (Pc ++ Qc) (mkNewEntry h avg m)).length = 100 := by
              rw [length_insEnd, hlenPcQc]
            rw [take_len_append hlenIns, List.take_of_length_le (le_of_eq hlenIns)]
        · rw [if_neg hlt, if_neg hlt]
          have hnnC : hasNullScore ((sortEnts (P ++ e0 :: Q)).take 100) = false :=
            hasNullScore_eq_false_of_numeric (fun x hx => hent x (hmemC x hx))
          rw [sortTrunc_ok_of_no_null hnnC, sortEnts_of_sorted hCsorted]
          rw [List.take_of_length_le]
          rw [List.length_take]
          omega
    · -- the matching entry was truncated away: the code appends instead
      have hnomC : ∀ x ∈ (sortEnts (P ++ e0 :: Q)).take 100,
          handleMatches h x = false := by
        intro x hx
        cases hval : handleMatches h x
        · rfl
        · exfalso
          have hxe0 : x = e0 := match_unique hhandles (hmemC x hx)
            (List.mem_append_right _ (List.mem_cons_self _ _)) hval he0
          rw [hxe0] at hx
          exact he0C hx
      rw [replaceOrAdd_of_no_match hnomC, except_bind_ok_eq, hspec]
      have he0D : e0 ∈ (sortEnts (P ++ e0 :: Q)).drop 100 := by
        have he0S : e0 ∈ sortEnts (P ++ e0 :: Q) :=
          hperm.mem_iff.mpr (List.mem_append_right _ (List.mem_cons_self _ _))
        rw [← hSdec] at he0S
        rcases List.mem_append.mp he0S with h1 | h2
        · exact absurd h1 he0C
        · exact h2
      have hDne : (sortEnts (P ++ e0 :: Q)).drop 100 ≠ [] :=
        List.ne_nil_of_mem he0D
      have hlenC : ((sortEnts (P ++ e0 :: Q)).take 100).length = 100 := by
        have hpos : 0 < (sortEnts (P ++ e0 :: Q)).length - 100 := by
          rw [← List.length_drop]
          exact List.length_pos.mpr hDne
        rw [List.length_take]
        omega
      have hcross : ∀ x ∈ (sortEnts (P ++ e0 :: Q)).take 100, entR x e0 := by
        have hs2 := hSsorted
        rw [← hSdec, List.Sorted, List.pairwise_append] at hs2
        exact fun x hx => hs2.2.2 x hx e0 he0D
      have hnn : hasNullScore
          ((sortEnts (P ++ e0 :: Q)).take 100 ++ [mkNewEntry h avg m]) = false := by
        refine hasNullScore_eq_false_of_numeric ?_
        intro x hx
        rcases List.mem_append.mp hx with hx1 | hx2
        · exact hent x (hmemC x hx1)
        · rw [List.mem_singleton] at hx2
          exact ⟨avg, by rw [hx2]; rfl⟩
      rw [sortTrunc_ok_of_no_null hnn, sortEnts_append_singleton hCsorted]
      by_cases hlt : avg < s0
      · rw [if_pos hlt]
        have hfreshPQ : ∀ x ∈ P ++ Q, sortKey x ≠ sortKey (mkNewEntry h avg m) := by
          intro x hx
          rw [sortKey_mkNewEntry]
          refine hfreshI x ?_
          rcases List.mem_append.mp hx with h1 | h2
          · exact List.mem_append_left _ h1
          · exact List.mem_append_right _ (List.mem_cons_of_mem _ h2)
        rw [sortEnts_middle_insert hfreshPQ]
        obtain ⟨Pd, Qd, hDdec⟩ := List.append_of_mem he0D
        have hCDeq : (sortEnts (P ++ e0 :: Q)).take 100 ++ (Pd ++ e0 :: Qd) =
            sortEnts (P ++ e0 :: Q) := by
          rw [← hDdec]
          exact hSdec
        have hpermPQ : ((sortEnts (P ++ e0 :: Q)).take 100 ++ (Pd ++ Qd)).Perm
            (P ++ Q) := by
          have h1 : ((sortEnts (P ++ e0 :: Q)).take 100 ++
              (Pd ++ e0 :: Qd)).Perm (P ++ e0 :: Q) := by
            rw [hCDeq]
            exact hperm
          have h2 : (sortEnts (P ++ e0 :: Q)).take 100 ++ (Pd ++ e0 :: Qd) =
              ((sortEnts (P ++ e0 :: Q)).take 100 ++ Pd) ++ e0 :: Qd := by
            simp
          rw [h2] at h1
          have h3 := (List.perm_middle.symm.trans h1).trans List.perm_middle
          have h4 := h3.cons_inv
          rw [← List.append_assoc]
          exact h4
        have hsortedPQD : List.Sorted entR
            ((sortEnts (P ++ e0 :: Q)).take 100 ++ (Pd ++ Qd)) := by
          have hsub : ((sortEnts (P ++ e0 :: Q)).take 100 ++ (Pd ++ Qd)).Sublist
              ((sortEnts (P ++ e0 :: Q)).take 100 ++ (Pd ++ e0 :: Qd)) :=
            List.Sublist.append (List.Sublist.refl _)
              (List.Sublist.append (List.Sublist.refl _)
                (List.sublist_cons_self _ _))
          rw [hCDeq] at hsub
          exact List.Pairwise.sublist hsub hSsorted
        have hkeysPQ : ((P ++ Q).map sortKey).Nodup := by
          refine hkeys.sublist ?_
          refine List.Sublist.map _ ?_
          exact List.Sublist.append (List.Sublist.refl _)
            (List.sublist_cons_self _ _)
        have hPQeq : sortEnts (P ++ Q) =
            (sortEnts (P ++ e0 :: Q)).take 100 ++ (Pd ++ Qd) :=
          (eq_sortEnts_of_perm_sorted_nodup hsortedPQD hpermPQ hkeysPQ).symm
        rw [hPQeq]
        exact congrArg Except.ok (take_insEnd_append hlenC).symm
      · rw [if_neg hlt]
        have hs0avg : s0 < avg := lt_of_le_of_ne (le_of_not_lt hlt) hs0ne
        have hall : ∀ x ∈ (sortEnts (P ++ e0 :: Q)).take 100,
            entLe x (mkNewEntry h avg m) = true := by
          intro x hx
          have h1 : entR x e0 := hcross x hx
          rw [entR, entLe, he0key] at h1
          rw [entLe, sortKey_mkNewEntry]
          refine keyLe_trans h1 ?_
          simp [keyLe]
          exact le_of_lt hs0avg
        have htw := takeWhile_eq_self_of_all hall
        have hdw := List.dropWhile_eq_nil_iff.mpr hall
        rw [insEnd, htw, hdw]
        rw [take_len_append hlenC]

theorem keys_swap_perm (A B R : List SKey) (k0 k1 : SKey) :
    ((A ++ k0 :: B) ++ k1 :: R).Perm (k0 :: ((A ++ k1 :: B) ++ R)) := by
  rw [List.perm_iff_count]
  intro a
  simp [List.count_append, List.count_cons]
  omega

theorem invC3_facts {I : List Entry} {op : Op} {ops : List Op}
    (hinv : InvC3 I (op :: ops)) :
    (I.map sortKey).Nodup ∧ SKey.num op.avg ∉ I.map sortKey := by
  obtain ⟨_, _, hkeys⟩ := hinv
  have hk2 : (I.map sortKey ++
      SKey.num op.avg :: ops.map (fun op => SKey.num op.avg)).Nodup := by
    simpa using hkeys
  rw [List.nodup_append] at hk2
  exact ⟨hk2.1, fun hmem => hk2.2.2 hmem (List.mem_cons_self _ _)⟩

theorem invC3_step {I : List Entry} {op : Op} {ops : List Op}
    (hinv : InvC3 I (op :: ops)) :
    InvC3 (specUncappedUpsert I op.handle op.avg op.meta) ops := by
  obtain ⟨hent, hhandles, hkeys⟩ := hinv
  have hkeys2 : (I.map sortKey ++
      SKey.num op.avg :: ops.map (fun op => SKey.num op.avg)).Nodup := by
    simpa using hkeys
  rcases hEI : existingIndex I op.handle with _ | i
  · have hnom := existingIndex_eq_none_iff.mp hEI
    rw [specUncappedUpsert_of_no_match hnom]
    refine ⟨?_, ?_, ?_⟩
    · intro e he
      rcases List.mem_append.mp he with h1 | h2
      · exact hent e h1
      · rw [List.mem_singleton] at h2
        exact ⟨op.avg, by rw [h2]; rfl⟩
    · rw [List.map_append, List.nodup_append]
      refine ⟨hhandles, by simp, ?_⟩
      intro a ha hb
      simp only [List.map_cons, List.map_nil, List.mem_singleton, mkNewEntry] at hb
      obtain ⟨x, hx, hxa⟩ := List.mem_map.mp ha
      have hxm := hnom x hx
      rw [handleMatches, hxa, hb] at hxm
      simp at hxm
    · have heq : (I ++ [mkNewEntry op.handle op.avg op.meta]).map sortKey ++
          ops.map (fun op => SKey.num op.avg) =
          I.map sortKey ++
            SKey.num op.avg :: ops.map (fun op => SKey.num op.avg) := by
        rw [List.map_append]
        rw [List.append_assoc]
        rfl
      rw [heq]
      exact hkeys2
  · obtain ⟨P, e0, Q, hIdec, _, he0, hP⟩ := existingIndex_destruct hEI
    subst hIdec
    obtain ⟨s0, hs0⟩ := hent e0 (List.mem_append_right _ (List.mem_cons_self _ _))
    have he0key : sortKey e0 = SKey.num s0 := by rw [sortKey, hs0]
    rw [specUncappedUpsert_split hP he0 hs0]
    by_cases hlt : op.avg < s0
    · rw [if_pos hlt]
      refine ⟨?_, ?_, ?_⟩
      · intro e he
        rcases List.mem_append.mp he with h1 | h2
        · exact hent e (List.mem_append_left _ h1)
        · rcases List.mem_cons.mp h2 with h3 | h4
          · exact ⟨op.avg, by rw [h3]; rfl⟩
          · exact hent e (List.mem_append_right _ (List.mem_cons_of_mem _ h4))
      · have heq : (P ++ mkNewEntry op.handle op.avg op.meta :: Q).map Entry.handle =
            (P ++ e0 :: Q).map Entry.handle := by
          simp [mkNewEntry, handle_eq_of_handleMatches he0]
        rw [heq]
        exact hhandles
      · have hmaps : (P ++ mkNewEntry op.handle op.avg op.meta :: Q).map sortKey =
            P.map sortKey ++ SKey.num op.avg :: Q.map sortKey := by
          simp [sortKey_mkNewEntry]
        have hmaps0 : (P ++ e0 :: Q).map sortKey =
            P.map sortKey ++ SKey.num s0 :: Q.map sortKey := by
          simp [he0key]
        rw [hmaps0] at hkeys2
        rw [hmaps]
        have hperm1 := keys_swap_perm (P.map sortKey) (Q.map sortKey)
          (ops.map (fun op => SKey.num op.avg)) (SKey.num s0) (SKey.num op.avg)
        have hnd := (hperm1.nodup_iff).mp hkeys2
        rw [List.nodup_cons] at hnd
        exact hnd.2
    · rw [if_neg hlt]
      refine ⟨hent, hhandles, ?_⟩
      refine hkeys2.sublist ?_
      exact List.Sublist.append (List.Sublist.refl _) (List.sublist_cons_self _ _)

/-- The capped code, run from a truncated sorted page, tracks the uncapped
ideal state across any run of requests satisfying the invariant. -/
theorem code_refines_spec (ops : List Op) :
    ∀ I : List Entry, InvC3 I ops →
      ops.foldl applyOp (.valid ((sortEnts I).take 100)) =
        .valid ((sortEnts (ops.foldl
          (fun l op => specUncappedUpsert l op.handle op.avg op.meta) I)).take 100) := by
  induction ops with
  | nil =>
    intro I _
    rfl
  | cons op ops ih =>
    intro I hinv
    obtain ⟨hkeysI, hfresh⟩ := invC3_facts hinv
    have hstep := code_step (h := op.handle) (m := op.meta)
      hinv.1 hinv.2.1 hkeysI hfresh
    have happ : applyOp (.valid ((sortEnts I).take 100)) op =
        .valid ((sortEnts (specUncappedUpsert I op.handle op.avg op.meta)).take 100) := by
      rw [applyOp, runUpsert, hstep]
    rw [List.foldl_cons, happ, List.foldl_cons]
    exact ih _ (invC3_step hinv)

/-- C3: starting from an absent file (or an existing empty array), any finite
sequence of upserts with pairwise-distinct scores leaves the file holding
exactly the first 100 entries of the ascending sort of the uncapped ideal
leaderboard — the entries ever inserted, combined by the per-handle
replace-if-strictly-lower rule — and in particular at most 100 entries.
With 101 distinct handles and distinct scores the ideal state holds all 101
entries, so the file holds exactly the 100 lowest, sorted ascending. -/
theorem claim_C3_capacity (ops : List Op) (hdist : (ops.map Op.avg).Nodup) :
    entriesOf (runOps .absent ops) = (sortEnts (specFold ops)).take 100 ∧
    entriesOf (runOps (.valid []) ops) = (sortEnts (specFold ops)).take 100 ∧
    (entriesOf (runOps .absent ops)).length ≤ 100 := by
  have hinv0 : InvC3 [] ops := by
    refine ⟨by simp, by simp, ?_⟩
    simp only [List.map_nil, List.nil_append]
    have heq : ops.map (fun op => SKey.num op.avg) =
        (ops.map Op.avg).map SKey.num := by
      rw [List.map_map]
      rfl
    rw [heq]
    refine hdist.map ?_
    intro a b hab
    injection hab
  have hvalid : runOps (.valid []) ops =
      .valid ((sortEnts (specFold ops)).take 100) :=
    code_refines_spec ops [] hinv0
  have h1 : entriesOf (runOps .absent ops) = (sortEnts (specFold ops)).take 100 := by
    cases ops with
    | nil => rfl
    | cons op ops' =>
      have habs : runOps .absent (op :: ops') = runOps (.valid []) (op :: ops') := by
        rw [runOps, runOps, List.foldl_cons, List.foldl_cons]
        rfl
      rw [habs, hvalid]
      rfl
  refine ⟨h1, by rw [hvalid]; rfl, ?_⟩
  rw [h1]
  exact List.length_take_le _ _

theorem claim_C3_capacity_witness :
    entriesOf (runOps .absent [⟨"@a", 2, []⟩, ⟨"@b", 1, []⟩, ⟨"@a", 3, []⟩]) =
      (sortEnts (specFold [⟨"@a", 2, []⟩, ⟨"@b", 1, []⟩, ⟨"@a", 3, []⟩])).take 100 ∧
    entriesOf (runOps (.valid []) [⟨"@a", 2, []⟩, ⟨"@b", 1, []⟩, ⟨"@a", 3, []⟩]) =
      (sortEnts (specFold [⟨"@a", 2, []⟩, ⟨"@b", 1, []⟩, ⟨"@a", 3, []⟩])).take 100 ∧
    (entriesOf (runOps .absent
      [⟨"@a", 2, []⟩, ⟨"@b", 1, []⟩, ⟨"@a", 3, []⟩])).length ≤ 100 :=
  claim_C3_capacity [⟨"@a", 2, []⟩, ⟨"@b", 1, []⟩, ⟨"@a", 3, []⟩] (by decide)
